import Mathlib

/-!
Verification development for the wordpress-to-zola converter.

The development shallowly embeds the two source files of the repository:

* `src/transform_html.rs` — the HTML paragraph normalizer `transform_html`
  together with its helpers `find_child_element`, `text_node` and `p_node`.
  The external HTML library (html5ever / markup5ever_rcdom) is not part of
  the repository; its parsing and serialization behaviour is modelled from
  the specification (§2, §4.2, §8) on the fragment grammar the
  specification exercises: attribute-free, properly nested markup without
  explicit `html`/`head`/`body` tags or doctypes, reproducing the
  documented hoisting of leading comments to the document level and the
  dropping of leading whitespace before the first real content.
* `src/main.rs` — the conversion pipeline `convert`, path generation,
  title escaping, the front-matter emission of `RealFs::create_page`, and
  the data model (`Item`, `Status`, `PostType`).  The external chrono
  date library is modelled from the specification: an RFC 2822 parser for
  the WordPress `pubDate` shape and an RFC 3339 renderer.

Machine integers (`isize` in the splice loop) are modelled as `Int`.
Fallible operations (panics such as `find_child_element`'s failure, or
`expect` on date parsing) are modelled with `Option`, `none` standing for
the unrecoverable failure.
-/

namespace WpZola

/-- Whitespace characters the HTML parser ignores before the first real
content (space, tab, line feed, form feed, carriage return). -/
def isWs (c : Char) : Bool :=
  c = ' ' || c = '\t' || c = '\n' || c = '\x0c' || c = '\r'

/-- Model of `Regex::new(r"\n\n+").is_match`: does the string contain two
consecutive newline characters? -/
def hasBlankRun : List Char → Bool
  | [] => false
  | [_] => false
  | a :: b :: rest => (a = '\n' && b = '\n') || hasBlankRun (b :: rest)

/-- Worker for `splitBlankRuns`.  `acc` is the current segment in reverse
order; `pending` counts the newline characters read but not yet committed
to a segment.  A pending run of length at least two is a separator (the
regex `\n\n+` is greedy, so maximal newline runs separate segments); a
pending run of length one is ordinary segment text. -/
def splitGo : List Char → List Char → Nat → List (List Char)
  | [], acc, pending =>
    if 2 ≤ pending then [acc.reverse, []]
    else if pending = 1 then [('\n' :: acc).reverse]
    else [acc.reverse]
  | c :: rest, acc, pending =>
    if c = '\n' then splitGo rest acc (pending + 1)
    else if 2 ≤ pending then acc.reverse :: splitGo rest [c] 0
    else if pending = 1 then splitGo rest (c :: '\n' :: acc) 0
    else splitGo rest (c :: acc) 0

/-- Model of `Regex::new(r"\n\n+").split`: split the string at every
maximal run of two or more consecutive newlines, keeping (possibly empty)
segments between, before and after the runs. -/
def splitBlankRuns (s : List Char) : List (List Char) :=
  splitGo s [] 0

/-- The number of blank-line runs in a string: one less than the number of
segments the regex split produces. -/
def numRuns (s : List Char) : Nat :=
  (splitBlankRuns s).length - 1

/-- Model of `itertools::intersperse(segments, "\n\n")`: put the two-newline
separator back between every pair of adjacent segments. -/
def intersperseGap : List (List Char) → List (List Char)
  | [] => []
  | [x] => [x]
  | x :: y :: rest => x :: ['\n', '\n'] :: intersperseGap (y :: rest)

/-- DOM nodes, embedding `markup5ever_rcdom::NodeData` restricted to the
variants the program manipulates.  Elements in the modelled fragments
carry no attributes (the fragments of the specification have none; the
synthetic `p` marker is created attribute-free by `p_node`). -/
inductive Node where
  | text (contents : List Char)
  | comment (contents : List Char)
  | element (name : String) (children : List Node)
deriving Repr

/-- The child list of a node; non-elements have no children. -/
def Node.kids : Node → List Node
  | Node.element _ cs => cs
  | _ => []

/-- Embedding of `text_node`: a fresh text node with the given payload. -/
def text_node (t : List Char) : Node := Node.text t

/-- Embedding of `p_node`: a fresh empty `p` element with no attributes
and no children. -/
def p_node : Node := Node.element "p" []

/-- ASCII lower-casing of one character. -/
def asciiLower (c : Char) : Char :=
  if 'A' ≤ c ∧ c ≤ 'Z' then Char.ofNat (c.toNat + 32) else c

/-- Embedding of `str::eq_ignore_ascii_case` on tag names. -/
def eqIgnoreAsciiCase (a b : String) : Bool :=
  a.toList.map asciiLower = b.toList.map asciiLower

/-- Embedding of `find_child_element`: scan the direct children in order
and return the first Element child whose tag name matches the target
case-insensitively; Text and Comment children are skipped and the search
never descends.  The source panics when nothing matches; the panic is
modelled as `none`. -/
def find_child_element : List Node → String → Option Node
  | [], _ => none
  | child :: rest, tag =>
    match child with
    | Node.element name cs =>
      if eqIgnoreAsciiCase name tag then some (Node.element name cs)
      else find_child_element rest tag
    | _ => find_child_element rest tag

/-- Worker for `scanTexts`, carrying the running child index `i : Int`
(the source uses `isize`). -/
def scanGo : List Node → Int → List (Int × List Char)
  | [], _ => []
  | n :: rest, i =>
    match n with
    | Node.text t =>
      if hasBlankRun t then (i, t) :: scanGo rest (i + 1) else scanGo rest (i + 1)
    | _ => scanGo rest (i + 1)

/-- Embedding of the scan pass of `transform_html`: collect
`(original_index, payload)` for every direct-child Text node whose payload
matches the blank-line pattern. -/
def scanTexts (cs : List Node) : List (Int × List Char) :=
  scanGo cs 0

/-- Semantics of `Vec::insert` at an in-bounds index. -/
def vecInsert (cs : List Node) (n : Nat) (x : Node) : List Node :=
  cs.take n ++ x :: cs.drop n

/-- Semantics of `Vec::remove` at an in-bounds index. -/
def vecRemove (cs : List Node) (n : Nat) : List Node :=
  cs.take n ++ cs.drop (n + 1)

/-- The node built for one interspersed chunk: the source compares the
chunk against the separator `"\n\n"` and builds a `p` marker for it, and a
text node for every other chunk. -/
def chunkNode (chunk : List Char) : Node :=
  if chunk = ['\n', '\n'] then p_node else text_node chunk

/-- Embedding of one iteration of the splice loop of `transform_html`:
remove the matched Text node at `original_index + offset`, then insert the
interspersed chunks one by one at `original_index + offset + 1`,
incrementing the offset after each single insertion. -/
def spliceOne (st : List Node × Int) (m : Int × List Char) : List Node × Int :=
  let cs0 := vecRemove st.1 (m.1 + st.2).toNat
  let off0 := st.2 - 1
  (intersperseGap (splitBlankRuns m.2)).foldl
    (fun st2 chunk => (vecInsert st2.1 (m.1 + st2.2 + 1).toNat (chunkNode chunk), st2.2 + 1))
    (cs0, off0)

/-- Embedding of the full splice pass: process the recorded matches in
ascending original-index order with the running offset started at 0. -/
def splice (cs : List Node) (texts : List (Int × List Char)) : List Node :=
  (texts.foldl spliceOne (cs, 0)).1

/-- Serializer escaping for text payloads, as the HTML serializer writes
them (ampersand, non-breaking space, angle brackets). -/
def escChar (c : Char) : List Char :=
  if c = '&' then "&amp;".toList
  else if c = ' ' then "&nbsp;".toList
  else if c = '<' then "&lt;".toList
  else if c = '>' then "&gt;".toList
  else [c]

/-- Escape a whole text payload for serialization. -/
def escapeText (s : List Char) : List Char :=
  (s.map escChar).flatten

mutual

/-- Modelled from the spec: the canonical serializer of the external HTML
library (§2, §4.2 Step 5) on one node: text is written with its payload
escaped, a comment as `<!--` payload `-->`, an element as its start tag,
its serialized children, and its end tag. -/
def serializeNode : Node → List Char
  | Node.text t => escapeText t
  | Node.comment c => "<!--".toList ++ c ++ "-->".toList
  | Node.element name cs =>
    '<' :: name.toList ++ '>' :: serializeNodes cs ++ '<' :: '/' :: name.toList ++ ['>']

/-- Serialize a child list in order (the default traversal serializes the
children of the handed-in node only, which is how the program serializes
the mutated `body`). -/
def serializeNodes : List Node → List Char
  | [] => []
  | n :: rest => serializeNode n ++ serializeNodes rest

end

/-- Lexer tokens of the modelled HTML parser. -/
inductive Tok where
  | text (s : List Char)
  | comment (s : List Char)
  | openTag (t : String)
  | closeTag (t : String)
deriving Repr

/-- Read a comment body up to and beyond the terminating `-->`. -/
def takeComment : List Char → Option (List Char × List Char)
  | '-' :: '-' :: '>' :: rest => some ([], rest)
  | [] => none
  | c :: rest => (takeComment rest).map (fun p => (c :: p.1, p.2))

/-- Read a tag name up to and beyond the terminating `>`. -/
def takeUntilGt : List Char → Option (List Char × List Char)
  | [] => none
  | '>' :: rest => some ([], rest)
  | c :: rest => (takeUntilGt rest).map (fun p => (c :: p.1, p.2))

/-- Fuel-indexed lexer: a maximal `<`-free run is one text token; `<!--`
opens a comment; `</` a closing tag; `<` an opening tag.  Each produced
token consumes at least one character, so fuel equal to the input length
suffices. -/
def tokenize : Nat → List Char → Option (List Tok)
  | _, [] => some []
  | 0, _ :: _ => none
  | fuel + 1, c :: rest =>
    if c = '<' then
      match rest with
      | '!' :: '-' :: '-' :: rest2 =>
        match takeComment rest2 with
        | none => none
        | some (cm, r) =>
          match tokenize fuel r with
          | none => none
          | some ts => some (Tok.comment cm :: ts)
      | '/' :: rest2 =>
        match takeUntilGt rest2 with
        | none => none
        | some (t, r) =>
          match tokenize fuel r with
          | none => none
          | some ts => some (Tok.closeTag (String.mk t) :: ts)
      | rest2 =>
        match takeUntilGt rest2 with
        | none => none
        | some (t, r) =>
          match tokenize fuel r with
          | none => none
          | some ts => some (Tok.openTag (String.mk t) :: ts)
    else
      let t := (c :: rest).takeWhile (fun d => d ≠ '<')
      let r := (c :: rest).dropWhile (fun d => d ≠ '<')
      match tokenize fuel r with
      | none => none
      | some ts => some (Tok.text t :: ts)

/-- Modelled from the spec: the documented front-of-document behaviour of
the external parser (§4.2 edge-case policies, §8, §9 open question) —
leading comments are hoisted out of `body` to the document level, and
leading whitespace before the first real content is dropped.  Returns the
hoisted document-level nodes and the remaining tokens that form `body`'s
content. -/
def hoist : List Tok → List Node × List Tok
  | Tok.comment c :: rest =>
    let p := hoist rest
    (Node.comment c :: p.1, p.2)
  | Tok.text s :: rest =>
    let s2 := s.dropWhile isWs
    if s2.isEmpty then hoist rest else ([], Tok.text s2 :: rest)
  | ts => ([], ts)

/-- Fuel-indexed tree builder: parse a node sequence until an unmatched
closing tag or the end of the tokens; an opening tag recursively parses
its children and requires the matching closing tag.  Both recursive calls
act on strictly fewer tokens, so fuel one beyond the token count
suffices. -/
def buildNodes : Nat → List Tok → Option (List Node × List Tok)
  | 0, _ => none
  | _ + 1, [] => some ([], [])
  | fuel + 1, t :: rest =>
    match t with
    | Tok.text s =>
      match buildNodes fuel rest with
      | none => none
      | some (ns, r) => some (Node.text s :: ns, r)
    | Tok.comment s =>
      match buildNodes fuel rest with
      | none => none
      | some (ns, r) => some (Node.comment s :: ns, r)
    | Tok.closeTag tag => some ([], Tok.closeTag tag :: rest)
    | Tok.openTag tag =>
      match buildNodes fuel rest with
      | none => none
      | some (children, r) =>
        match r with
        | Tok.closeTag tag2 :: r2 =>
          if tag2 = tag then
            match buildNodes fuel r2 with
            | none => none
            | some (ns, r3) => some (Node.element tag children :: ns, r3)
          else none
        | _ => none

/-- The parsed document: its direct children (hoisted comments followed by
the `html` element). -/
structure Document where
  children : List Node
deriving Repr

/-- Modelled from the spec: the external HTML parser (§2, §4.2 Step 1) on
the fragment grammar of the specification.  The fragment becomes the
content of `body` inside a synthesized `html` element (with an empty
`head` before `body`); hoisted leading comments become direct children of
the document before `html`. -/
def parseDocument (l : List Char) : Option Document :=
  match tokenize l.length l with
  | none => none
  | some toks =>
    let p := hoist toks
    match buildNodes (p.2.length + 1) p.2 with
    | none => none
    | some (ns, leftover) =>
      match leftover with
      | [] =>
        some ⟨p.1 ++ [Node.element "html" [Node.element "head" [], Node.element "body" ns]]⟩
      | _ => none

/-- Embedding of `transform_html`: parse the content, locate `html` then
`body`, scan `body`'s direct children for blank-line-bearing Text nodes;
with no match return the original string untouched, otherwise splice and
serialize the mutated `body` subtree.  `none` models a panic (missing
`html`/`body`) or an input outside the modelled parser fragment. -/
def transform_html (content : String) : Option String :=
  match parseDocument content.toList with
  | none => none
  | some doc =>
    match find_child_element doc.children "html" with
    | none => none
    | some html =>
      match find_child_element html.kids "body" with
      | none => none
      | some body =>
        let texts := scanTexts body.kids
        if texts.isEmpty then some content
        else some (String.mk (serializeNodes (splice body.kids texts)))

/-! Embedding of `src/main.rs`: the conversion pipeline. -/

/-- Embedding of the `Status` enum of `main.rs` (`wp:status`). -/
inductive Status where
  | publish
  | draft
  | inherit
  | priv
deriving Repr, DecidableEq

/-- Embedding of the `PostType` enum of `main.rs` (`wp:post_type`). -/
inductive PostType where
  | attachment
  | post
  | other
deriving Repr, DecidableEq

/-- Embedding of the `Item` struct of `main.rs`: one exported blog item. -/
structure Item where
  title : String
  link : String
  pub_date : String
  post_type : PostType
  encoded : List String
  status : Status
deriving Repr

/-- Modelled from the spec: the external chrono `DateTime<FixedOffset>`
(§6 consumes an RFC 2822 `publish_date` and emits an RFC 3339 timestamp),
kept as calendar and clock components plus a UTC offset in minutes. -/
structure DateTime where
  year : Nat
  month : Nat
  day : Nat
  hour : Nat
  minute : Nat
  second : Nat
  offsetMinutes : Int
deriving Repr, DecidableEq

/-- Read a run of decimal digits from the front of the string, returning
its value, its length and the rest. -/
def readDigits : List Char → Nat → Nat → Nat × Nat × List Char
  | [], acc, len => (acc, len, [])
  | c :: rest, acc, len =>
    if '0' ≤ c ∧ c ≤ '9' then
      readDigits rest (acc * 10 + (c.toNat - '0'.toNat)) (len + 1)
    else (acc, len, c :: rest)

/-- The RFC 2822 month names in order. -/
def monthNames : List (List Char) :=
  ["Jan".toList, "Feb".toList, "Mar".toList, "Apr".toList, "May".toList,
   "Jun".toList, "Jul".toList, "Aug".toList, "Sep".toList, "Oct".toList,
   "Nov".toList, "Dec".toList]

/-- Look up a month name, producing its one-based number. -/
def monthNumber (s : List Char) : Option Nat :=
  match (monthNames.indexOf s : Nat) with
  | n => if n < 12 then some (n + 1) else none

/-- Modelled from the spec: chrono's `DateTime::parse_from_rfc2822` on
the WordPress `pubDate` shape (§6 `publish_date: string (RFC 2822)`),
for example `Mon, 01 Sep 2008 21:02:27 +0000`: an optional day-of-week
followed by a comma, then day, month name, four-digit year, a
colon-separated clock, and a signed four-digit numeric zone.  Out-of-range
components are rejected; the `expect` panic on failure is modelled by the
caller receiving `none`. -/
def parse_from_rfc2822 (s : String) : Option DateTime :=
  let l := s.toList
  let l := if l.contains ',' then ((l.dropWhile (fun c => c ≠ ',')).drop 1).dropWhile (· = ' ')
           else l
  match readDigits l 0 0 with
  | (day, dlen, rest) =>
    if dlen = 0 ∨ 2 < dlen then none else
    match rest with
    | ' ' :: r1 =>
      let mname := r1.takeWhile (fun c => c ≠ ' ')
      let r2 := (r1.dropWhile (fun c => c ≠ ' ')).drop 1
      match monthNumber mname with
      | none => none
      | some month =>
        match readDigits r2 0 0 with
        | (year, ylen, r3) =>
          if ylen ≠ 4 then none else
          match r3 with
          | ' ' :: r4 =>
            match readDigits r4 0 0 with
            | (hour, hlen, r5) =>
              if hlen ≠ 2 then none else
              match r5 with
              | ':' :: r6 =>
                match readDigits r6 0 0 with
                | (minute, mlen, r7) =>
                  if mlen ≠ 2 then none else
                  match r7 with
                  | ':' :: r8 =>
                    match readDigits r8 0 0 with
                    | (second, slen, r9) =>
                      if slen ≠ 2 then none else
                      match r9 with
                      | ' ' :: sign :: r10 =>
                        if sign ≠ '+' ∧ sign ≠ '-' then none else
                        match readDigits r10 0 0 with
                        | (zone, zlen, r11) =>
                          if zlen ≠ 4 ∨ r11 ≠ [] then none else
                          let off : Int := (zone / 100) * 60 + zone % 100
                          let off := if sign = '-' then -off else off
                          if 1 ≤ day ∧ day ≤ 31 ∧ hour < 24 ∧ minute < 60 ∧ second < 61 then
                            some ⟨year, month, day, hour, minute, second, off⟩
                          else none
                      | _ => none
                  | _ => none
              | _ => none
          | _ => none
    | _ => none

/-- Zero-pad a number to two digits. -/
def pad2 (n : Nat) : String :=
  if n < 10 then "0" ++ toString n else toString n

/-- Zero-pad a number to four digits. -/
def pad4 (n : Nat) : String :=
  if n < 10 then "000" ++ toString n
  else if n < 100 then "00" ++ toString n
  else if n < 1000 then "0" ++ toString n
  else toString n

/-- Modelled from the spec: chrono's `to_rfc3339` (§6 `date = <RFC 3339
timestamp>`): `YYYY-MM-DDTHH:MM:SS` followed by the signed `HH:MM` zone. -/
def to_rfc3339 (d : DateTime) : String :=
  let off := d.offsetMinutes
  let sign := if off < 0 then "-" else "+"
  let a := off.natAbs
  pad4 d.year ++ "-" ++ pad2 d.month ++ "-" ++ pad2 d.day ++ "T" ++
    pad2 d.hour ++ ":" ++ pad2 d.minute ++ ":" ++ pad2 d.second ++
    sign ++ pad2 (a / 60) ++ ":" ++ pad2 (a % 60)

/-- Embedding of `item.title.replace('"', "\\\"")`: every double quote
becomes a backslash followed by a double quote. -/
def replaceQuote : List Char → List Char
  | [] => []
  | c :: rest =>
    if c = '"' then '\\' :: '"' :: replaceQuote rest else c :: replaceQuote rest

/-- Embedding of `markdown.replace("[]()", "")`: delete every occurrence
of the four-character empty-link pattern, scanning left to right. -/
def removeEmptyLinks : List Char → List Char
  | '[' :: ']' :: '(' :: ')' :: rest => removeEmptyLinks rest
  | [] => []
  | c :: rest => c :: removeEmptyLinks rest

/-- Embedding of `str::trim_start_matches`: repeatedly strip the prefix
from the front while it is present. -/
def trimStartMatches (pre s : List Char) : List Char :=
  if h : pre ≠ [] ∧ pre.isPrefixOf s then
    trimStartMatches pre (s.drop pre.length)
  else s
termination_by s.length
decreasing_by
  have hpre : pre <+: s := List.isPrefixOf_iff_prefix.mp h.2
  have hlen : pre.length ≤ s.length := hpre.length_le
  have hpos : 0 < pre.length := List.length_pos.mpr h.1
  simp only [List.length_drop]
  omega

/-- Embedding of `str::trim_matches('/')`: strip the character from both
ends. -/
def trimSlashes (s : List Char) : List Char :=
  ((s.dropWhile (· = '/')).reverse.dropWhile (· = '/')).reverse

/-- Embedding of `generate_path`: splice the base url off the front of the
link, trim surrounding slashes, and append the markdown extension. -/
def generate_path (base_url link : String) : String :=
  String.mk (trimSlashes (trimStartMatches base_url.toList link.toList)) ++ ".md"

/-- Embedding of `Path::join` for the relative paths the program builds. -/
def pathJoin (a b : String) : String :=
  if a = "" then b else a ++ "/" ++ b

/-- Embedding of `Path::parent` on the program's relative multi-component
paths: everything before the final slash (the empty string when the path
is a single component). -/
def parentDir (s : String) : String :=
  String.mk ((((s.toList.reverse).dropWhile (fun c => c ≠ '/')).drop 1).reverse)

/-- One recorded call against the `Fs` trait, as the tests' `FakeFs`
records them; `page` carries the exact bytes `RealFs::create_page` would
write for the given arguments. -/
inductive FsCall where
  | dir (path : String)
  | section (path : String)
  | page (path : String) (content : String)
deriving Repr, DecidableEq

/-- Embedding of `RealFs::create_page`'s output: the front-matter block
delimited by `+++` lines with the title and the RFC 3339 date, followed by
the markdown body, each written with a trailing newline. -/
def create_page_content (title : String) (date : DateTime) (markdown : String) : String :=
  "+++\n" ++ "title = \"" ++ title ++ "\"\n" ++ "date = " ++ to_rfc3339 date ++ "\n"
    ++ "+++\n" ++ markdown ++ "\n"

/-- Worker of `convert`: fold over the items, threading the set of
sections already created (`none` models an `expect` panic: an unparsable
`pubDate` or an item with no encoded content).  `md` stands for the
external `html2md::parse_html` collaborator. -/
def convertGo (md : String → String) (base output : String) :
    List Item → List String → Option (List FsCall)
  | [], _ => some []
  | item :: rest, sections =>
    match item.status with
    | Status.publish =>
      match item.post_type with
      | PostType.post =>
        let path := pathJoin output (generate_path base item.link)
        let sec := parentDir path
        let secCalls :=
          if sec ∈ sections then [] else [FsCall.section sec]
        match parse_from_rfc2822 item.pub_date with
        | none => none
        | some date =>
          match item.encoded.head? with
          | none => none
          | some content =>
            let markdown := String.mk (removeEmptyLinks (md content).toList)
            match convertGo md base output rest (if sec ∈ sections then sections else sec :: sections) with
            | none => none
            | some calls =>
              some (FsCall.dir sec :: secCalls
                ++ FsCall.page path
                    (create_page_content (String.mk (replaceQuote item.title.toList)) date markdown)
                :: calls)
      | _ => convertGo md base output rest sections
    | _ => convertGo md base output rest sections

/-- Embedding of `convert` on an already-parsed export: produce the
ordered list of filesystem effects, starting with no known sections. -/
def convert (md : String → String) (base output : String) (items : List Item) :
    Option (List FsCall) :=
  convertGo md base output items []

/-- The alternating node sequence the specification prescribes for one
splice: the split segments as Text nodes with one empty `p` marker
between each adjacent pair. -/
def alternation : List (List Char) → List Node
  | [] => []
  | [s] => [Node.text s]
  | s :: t :: rest => Node.text s :: p_node :: alternation (t :: rest)

/-! Helper lemmas. -/

/-- Appending one character introduces a blank run exactly when one was
already present or the string ended in a newline and the new character is
a newline. -/
theorem hasBlankRun_concat (xs : List Char) (c : Char) :
    hasBlankRun (xs ++ [c])
      = (hasBlankRun xs || (decide (xs.getLast? = some '\n') && decide (c = '\n'))) := by
  induction xs with
  | nil => simp [hasBlankRun]
  | cons a tl ih =>
    cases tl with
    | nil =>
      simp [hasBlankRun, List.getLast?]
    | cons b tl2 =>
      have hcons : (a :: b :: tl2) ++ [c] = a :: ((b :: tl2) ++ [c]) := by simp
      rw [hcons]
      have hbr : hasBlankRun (a :: ((b :: tl2) ++ [c]))
          = ((a = '\n' && b = '\n') || hasBlankRun ((b :: tl2) ++ [c])) := by
        simp [hasBlankRun]
      rw [hbr, ih, List.getLast?_cons_cons]
      simp [hasBlankRun, Bool.or_assoc]

/-- Every segment produced by the split contains no blank-line run, as
long as the accumulated segment prefix contains none and does not end in a
newline. -/
theorem splitGo_no_gap (l : List Char) : ∀ acc pending,
    hasBlankRun acc.reverse = false → acc.head? ≠ some '\n' →
    ∀ s ∈ splitGo l acc pending, hasBlankRun s = false := by
  induction l with
  | nil =>
    intro acc pending hacc hhd s hs
    simp only [splitGo] at hs
    by_cases h2 : 2 ≤ pending
    · simp [h2] at hs
      rcases hs with h | h
      · rw [h]; exact hacc
      · rw [h]; rfl
    · by_cases h1 : pending = 1
      · simp [h2, h1] at hs
        rw [hs, hasBlankRun_concat, hacc, List.getLast?_reverse]
        simp [hhd]
      · simp [h2, h1] at hs
        rw [hs]; exact hacc
  | cons c rest ih =>
    intro acc pending hacc hhd s hs
    simp only [splitGo] at hs
    by_cases hc : c = '\n'
    · simp [hc] at hs
      exact ih acc (pending + 1) hacc hhd s hs
    · by_cases h2 : 2 ≤ pending
      · simp [hc, h2] at hs
        rcases hs with h | h
        · rw [h]; exact hacc
        · refine ih [c] 0 (by simp [hasBlankRun]) (by simp [hc]) s h
      · by_cases h1 : pending = 1
        · simp [hc, h2, h1] at hs
          refine ih (c :: '\n' :: acc) 0 ?_ (by simp [hc]) s hs
          have hrev : (c :: '\n' :: acc).reverse = (acc.reverse ++ ['\n']) ++ [c] := by simp
          rw [hrev, hasBlankRun_concat, hasBlankRun_concat, hacc,
            List.getLast?_reverse]
          simp [hc, hhd]
        · simp [hc, h2, h1] at hs
          refine ih (c :: acc) 0 ?_ (by simp [hc]) s hs
          rw [List.reverse_cons, hasBlankRun_concat, hacc]
          simp [hc]

/-- No segment of the regex split has a blank-line run; in particular no
segment is the two-newline separator itself. -/
theorem splitBlankRuns_no_gap (t : List Char) :
    ∀ s ∈ splitBlankRuns t, hasBlankRun s = false :=
  splitGo_no_gap t [] 0 (by rfl) (by simp)

/-- The split never produces the empty segment list. -/
theorem splitGo_ne_nil (l : List Char) : ∀ acc pending, splitGo l acc pending ≠ [] := by
  induction l with
  | nil =>
    intro acc pending
    simp only [splitGo]
    by_cases h2 : 2 ≤ pending
    · simp [h2]
    · by_cases h1 : pending = 1 <;> simp [h2, h1]
  | cons c rest ih =>
    intro acc pending
    simp only [splitGo]
    by_cases hc : c = '\n'
    · simp [hc]; exact ih acc (pending + 1)
    · by_cases h2 : 2 ≤ pending
      · simp [hc, h2]
      · by_cases h1 : pending = 1
        · simp [hc, h2, h1]; exact ih (c :: '\n' :: acc) 0
        · simp [hc, h2, h1]; exact ih (c :: acc) 0

/-- A matched payload splits into at least two segments: the split has at
least two segments when the remaining input has a blank run, or at least
two newlines are pending, or one is pending and another follows. -/
theorem splitGo_two_segments (l : List Char) : ∀ acc pending,
    (hasBlankRun l = true ∨ 2 ≤ pending ∨ (pending = 1 ∧ l.head? = some '\n')) →
    2 ≤ (splitGo l acc pending).length := by
  induction l with
  | nil =>
    intro acc pending hyp
    rcases hyp with h | h | h
    · simp [hasBlankRun] at h
    · simp [splitGo, h]
    · simp at h
  | cons c rest ih =>
    intro acc pending hyp
    simp only [splitGo]
    by_cases hc : c = '\n'
    · simp only [hc, if_pos rfl]
      refine ih acc (pending + 1) ?_
      rcases hyp with h | h | h
      · subst hc
        cases rest with
        | nil => simp [hasBlankRun] at h
        | cons d rest2 =>
          have : hasBlankRun ('\n' :: d :: rest2) = ((d = '\n') || hasBlankRun (d :: rest2)) := by
            simp [hasBlankRun]
          rw [this] at h
          rcases Bool.or_eq_true_iff.mp h with hd | hd
          · by_cases hp : pending = 0
            · right; right
              refine ⟨by omega, ?_⟩
              simp [of_decide_eq_true hd]
            · right; left; omega
          · left; exact hd
      · right; left; omega
      · right; left; omega
    · rcases hyp with h | h | h
      · have hr : hasBlankRun rest = true := by
          cases rest with
          | nil => simp [hasBlankRun] at h
          | cons d rest2 =>
            have : hasBlankRun (c :: d :: rest2)
                = ((c = '\n' && d = '\n') || hasBlankRun (d :: rest2)) := by
              simp [hasBlankRun]
            rw [this] at h
            rcases Bool.or_eq_true_iff.mp h with hd | hd
            · rcases Bool.and_eq_true_iff.mp hd with ⟨hc2, _⟩
              exact absurd (decide_eq_true_iff.mp hc2) hc
            · exact hd
        by_cases h2 : 2 ≤ pending
        · have hne := splitGo_ne_nil rest [c] 0
          have hlen : 1 ≤ (splitGo rest [c] 0).length := by
            cases hsg : splitGo rest [c] 0 with
            | nil => exact absurd hsg hne
            | cons x xs => simp
          simp [hc, h2]
          omega
        · by_cases h1 : pending = 1
          · simp [hc, h2, h1]
            exact ih (c :: '\n' :: acc) 0 (Or.inl hr)
          · simp [hc, h2, h1]
            exact ih (c :: acc) 0 (Or.inl hr)
      · have hne := splitGo_ne_nil rest [c] 0
        have hlen : 1 ≤ (splitGo rest [c] 0).length := by
          cases hsg : splitGo rest [c] 0 with
          | nil => exact absurd hsg hne
          | cons x xs => simp
        simp [hc, h]
        omega
      · exact absurd h.2 (by simp [hc])

/-- A payload matched by the blank-line pattern has at least one run. -/
theorem numRuns_pos (t : List Char) (h : hasBlankRun t = true) : 1 ≤ numRuns t := by
  have h2 : 2 ≤ (splitBlankRuns t).length :=
    splitGo_two_segments t [] 0 (Or.inl h)
  unfold numRuns
  omega

/-- No split segment is the literal two-newline separator. -/
theorem segments_ne_sep (t : List Char) :
    ∀ s ∈ splitBlankRuns t, s ≠ ['\n', '\n'] := by
  intro s hs hcontra
  have h := splitBlankRuns_no_gap t s hs
  rw [hcontra] at h
  simp [hasBlankRun] at h

/-- Interspersing the separator turns `L` segments into `2*L - 1`
chunks. -/
theorem intersperseGap_length : ∀ segs : List (List Char), segs ≠ [] →
    (intersperseGap segs).length = 2 * segs.length - 1 := by
  intro segs
  induction segs with
  | nil => intro h; exact absurd rfl h
  | cons x rest ih =>
    intro _
    cases rest with
    | nil => simp [intersperseGap]
    | cons y rest2 =>
      have := ih (by simp)
      simp only [intersperseGap, List.length_cons] at this ⊢
      omega

/-- The alternating sequence for `L` segments has `2*L - 1` nodes. -/
theorem alternation_length : ∀ segs : List (List Char), segs ≠ [] →
    (alternation segs).length = 2 * segs.length - 1 := by
  intro segs
  induction segs with
  | nil => intro h; exact absurd rfl h
  | cons x rest ih =>
    intro _
    cases rest with
    | nil => simp [alternation]
    | cons y rest2 =>
      have := ih (by simp)
      simp only [alternation, List.length_cons] at this ⊢
      omega

/-- When no segment is the separator itself, building nodes from the
interspersed chunks yields exactly the alternating
segment/marker/segment sequence. -/
theorem alternation_eq_map : ∀ segs : List (List Char),
    (∀ s ∈ segs, s ≠ ['\n', '\n']) →
    (intersperseGap segs).map chunkNode = alternation segs := by
  intro segs
  induction segs with
  | nil => intro _; rfl
  | cons x rest ih =>
    intro hne
    cases rest with
    | nil =>
      have hx : x ≠ ['\n', '\n'] := hne x (by simp)
      simp [intersperseGap, alternation, chunkNode, text_node, hx]
    | cons y rest2 =>
      have hx : x ≠ ['\n', '\n'] := hne x (by simp)
      have hrest : ∀ s ∈ y :: rest2, s ≠ ['\n', '\n'] := by
        intro s hs
        exact hne s (List.mem_cons_of_mem _ hs)
      simp only [intersperseGap, alternation, List.map_cons]
      rw [ih hrest]
      simp [chunkNode, text_node, p_node, hx]

/-- Folding the insertion step over the chunks, starting right after an
initial prefix, appends the chunk nodes between the prefix and the rest
and grows the offset by the number of insertions. -/
theorem foldInsert_append : ∀ (chunks : List (List Char)) (pre post : List Node) (i off : Int),
    i + off + 1 = pre.length →
    chunks.foldl
      (fun st2 chunk => (vecInsert st2.1 (i + st2.2 + 1).toNat (chunkNode chunk), st2.2 + 1))
      (pre ++ post, off)
    = (pre ++ chunks.map chunkNode ++ post, off + chunks.length) := by
  intro chunks
  induction chunks with
  | nil =>
    intro pre post i off _
    simp
  | cons chunk rest ih =>
    intro pre post i off h
    have hj : (i + off + 1).toNat = pre.length := by omega
    have hins : vecInsert (pre ++ post) (i + off + 1).toNat (chunkNode chunk)
        = (pre ++ [chunkNode chunk]) ++ post := by
      unfold vecInsert
      rw [hj, List.take_left, List.drop_left]
      simp
    have h2 : i + (off + 1) + 1 = ((pre ++ [chunkNode chunk]).length : Int) := by
      simp only [List.length_append, List.length_cons, List.length_nil]
      push_cast
      omega
    have hstep := ih (pre ++ [chunkNode chunk]) post i (off + 1) h2
    simp only [List.foldl_cons, hins, hstep]
    rw [Prod.mk.injEq]
    constructor
    · simp
    · simp only [List.length_cons]
      push_cast
      omega

/-- Every match the scan records points at a direct-child Text node of
the scanned list, at the recorded index, and its payload matches the
blank-line pattern — Element and Comment children are never recorded and
nested content is never inspected. -/
theorem scanGo_mem : ∀ (cs : List Node) (i j : Int) (t : List Char),
    (j, t) ∈ scanGo cs i →
    i ≤ j ∧ cs[(j - i).toNat]? = some (Node.text t) ∧ hasBlankRun t = true := by
  intro cs
  induction cs with
  | nil =>
    intro i j t h
    simp [scanGo] at h
  | cons n rest ih =>
    intro i j t h
    have hstep : ∀ hmem : (j, t) ∈ scanGo rest (i + 1),
        i ≤ j ∧ (n :: rest)[(j - i).toNat]? = some (Node.text t) ∧ hasBlankRun t = true := by
      intro hmem
      obtain ⟨hle, hget, hbr⟩ := ih (i + 1) j t hmem
      refine ⟨by omega, ?_, hbr⟩
      have hidx : (j - i).toNat = (j - (i + 1)).toNat + 1 := by omega
      rw [hidx, List.getElem?_cons_succ]
      exact hget
    cases n with
    | text t0 =>
      by_cases hb : hasBlankRun t0 = true
      · simp only [scanGo, hb, if_pos] at h
        rcases List.mem_cons.mp h with heq | hmem
        · obtain ⟨rfl, rfl⟩ := Prod.mk.inj heq
          refine ⟨le_refl _, ?_, hb⟩
          simp
        · exact hstep hmem
      · simp only [scanGo, hb, if_neg] at h
        exact hstep (by simpa using h)
    | comment c0 =>
      simp only [scanGo] at h
      exact hstep h
    | element nm kids =>
      simp only [scanGo] at h
      exact hstep h

/-- With no scan match the function returns the untouched input string. -/
theorem transform_eq_of_no_match (content : String) (doc : Document) (htmlN bodyN : Node)
    (h1 : parseDocument content.toList = some doc)
    (h2 : find_child_element doc.children "html" = some htmlN)
    (h3 : find_child_element htmlN.kids "body" = some bodyN)
    (h4 : scanTexts bodyN.kids = []) :
    transform_html content = some content := by
  have h1d : parseDocument content.data = some doc := h1
  simp [transform_html, h1d, h2, h3, h4]

/-- With at least one scan match the function returns the serialization
of the spliced `body` child list. -/
theorem transform_eq_of_match (content : String) (doc : Document) (htmlN bodyN : Node)
    (h1 : parseDocument content.toList = some doc)
    (h2 : find_child_element doc.children "html" = some htmlN)
    (h3 : find_child_element htmlN.kids "body" = some bodyN)
    (h4 : scanTexts bodyN.kids ≠ []) :
    transform_html content
      = some (String.mk (serializeNodes (splice bodyN.kids (scanTexts bodyN.kids)))) := by
  have h1d : parseDocument content.data = some doc := h1
  simp [transform_html, h1d, h2, h3, h4]

/-- A successful lookup returns an Element whose tag matches the target
case-insensitively, and it is the first such child: every earlier Element
child fails the tag comparison. -/
theorem fce_some_spec : ∀ (cs : List Node) (tag : String) (n : Node),
    find_child_element cs tag = some n →
    ((∃ t kids, n = Node.element t kids ∧ eqIgnoreAsciiCase t tag = true) ∧
     ∃ k : Nat, cs[k]? = some n ∧
       ∀ j : Nat, j < k → ∀ t2 kids2, cs[j]? = some (Node.element t2 kids2) →
         eqIgnoreAsciiCase t2 tag = false) := by
  intro cs
  induction cs with
  | nil =>
    intro tag n h
    simp [find_child_element] at h
  | cons c rest ih =>
    intro tag n h
    cases c with
    | text t0 =>
      have hr : find_child_element rest tag = some n := h
      obtain ⟨hel, k, hk, hmin⟩ := ih tag n hr
      refine ⟨hel, k + 1, by simpa using hk, ?_⟩
      intro j hj t2 kids2 hget
      cases j with
      | zero => simp at hget
      | succ j2 =>
        rw [List.getElem?_cons_succ] at hget
        exact hmin j2 (by omega) t2 kids2 hget
    | comment c0 =>
      have hr : find_child_element rest tag = some n := h
      obtain ⟨hel, k, hk, hmin⟩ := ih tag n hr
      refine ⟨hel, k + 1, by simpa using hk, ?_⟩
      intro j hj t2 kids2 hget
      cases j with
      | zero => simp at hget
      | succ j2 =>
        rw [List.getElem?_cons_succ] at hget
        exact hmin j2 (by omega) t2 kids2 hget
    | element name kids =>
      by_cases he : eqIgnoreAsciiCase name tag = true
      · have hsome : some (Node.element name kids) = some n := by
          simpa [find_child_element, he] using h
        obtain rfl : Node.element name kids = n := by injection hsome
        refine ⟨⟨name, kids, rfl, he⟩, 0, by simp, ?_⟩
        intro j hj
        omega
      · have hr : find_child_element rest tag = some n := by
          simpa [find_child_element, he] using h
        obtain ⟨hel, k, hk, hmin⟩ := ih tag n hr
        refine ⟨hel, k + 1, by simpa using hk, ?_⟩
        intro j hj t2 kids2 hget
        cases j with
        | zero =>
          have hinj : name = t2 ∧ kids = kids2 := by simpa using hget
          obtain ⟨rfl, rfl⟩ := hinj
          simp at he
          exact he
        | succ j2 =>
          rw [List.getElem?_cons_succ] at hget
          exact hmin j2 (by omega) t2 kids2 hget

/-- The lookup fails exactly when no direct child is an Element with a
case-insensitively matching tag. -/
theorem fce_none_spec : ∀ (cs : List Node) (tag : String),
    find_child_element cs tag = none ↔
    ∀ t2 kids2, Node.element t2 kids2 ∈ cs → eqIgnoreAsciiCase t2 tag = false := by
  intro cs
  induction cs with
  | nil =>
    intro tag
    simp [find_child_element]
  | cons c rest ih =>
    intro tag
    cases c with
    | text t0 =>
      rw [show find_child_element (Node.text t0 :: rest) tag
          = find_child_element rest tag from rfl, ih tag]
      constructor
      · intro h t2 kids2 hmem
        rcases List.mem_cons.mp hmem with heq | hm
        · exact absurd heq (by simp)
        · exact h t2 kids2 hm
      · intro h t2 kids2 hm
        exact h t2 kids2 (List.mem_cons_of_mem _ hm)
    | comment c0 =>
      rw [show find_child_element (Node.comment c0 :: rest) tag
          = find_child_element rest tag from rfl, ih tag]
      constructor
      · intro h t2 kids2 hmem
        rcases List.mem_cons.mp hmem with heq | hm
        · exact absurd heq (by simp)
        · exact h t2 kids2 hm
      · intro h t2 kids2 hm
        exact h t2 kids2 (List.mem_cons_of_mem _ hm)
    | element name kids =>
      by_cases he : eqIgnoreAsciiCase name tag = true
      · rw [show find_child_element (Node.element name kids :: rest) tag
            = some (Node.element name kids) from by simp [find_child_element, he]]
        refine iff_of_false (by simp) ?_
        intro hall
        have := hall name kids (List.mem_cons_self _ _)
        rw [he] at this
        simp at this
      · rw [show find_child_element (Node.element name kids :: rest) tag
            = find_child_element rest tag from by simp [find_child_element, he], ih tag]
        constructor
        · intro h t2 kids2 hmem
          rcases List.mem_cons.mp hmem with heq | hm
          · have hinj : t2 = name ∧ kids2 = kids := by
              constructor
              · injection heq
              · injection heq
            obtain ⟨rfl, rfl⟩ := hinj
            simp at he
            exact he
          · exact h t2 kids2 hm
        · intro h t2 kids2 hm
          exact h t2 kids2 (List.mem_cons_of_mem _ hm)

/-- Lexing a nonempty text with no tag opener yields one text token. -/
theorem tokenize_textonly : ∀ (fuel : Nat) (l : List Char), l ≠ [] → (∀ d ∈ l, ¬ d = '<') →
    tokenize (fuel + 1) l = some [Tok.text l] := by
  intro fuel l hne hlt
  cases l with
  | nil => exact absurd rfl hne
  | cons c rest =>
    have hc : ¬ c = '<' := hlt c (by simp)
    have htake : List.takeWhile (fun d => !decide (d = '<')) rest = rest := by
      rw [List.takeWhile_eq_self_iff]
      intro a ha
      simp [hlt a (List.mem_cons_of_mem _ ha)]
    have hdrop : List.dropWhile (fun d => !decide (d = '<')) rest = [] := by
      rw [List.dropWhile_eq_nil_iff]
      intro a ha
      simp [hlt a (List.mem_cons_of_mem _ ha)]
    simp [tokenize, hc, htake, hdrop]

/-- Parsing a nonempty tag-free text whose head is not whitespace yields a
body with that text as its single direct child. -/
theorem parse_textonly (l : List Char) (hne : l ≠ []) (hlt : ∀ d ∈ l, ¬ d = '<')
    (hws : ∀ c, l.head? = some c → isWs c = false) :
    parseDocument l
      = some ⟨[Node.element "html"
          [Node.element "head" [], Node.element "body" [Node.text l]]]⟩ := by
  cases l with
  | nil => exact absurd rfl hne
  | cons c rest =>
    have htok : tokenize (c :: rest).length (c :: rest) = some [Tok.text (c :: rest)] := by
      rw [show (c :: rest).length = rest.length + 1 from by simp]
      exact tokenize_textonly rest.length (c :: rest) hne hlt
    have hwsc : isWs c = false := hws c rfl
    have hhoist : hoist [Tok.text (c :: rest)] = ([], [Tok.text (c :: rest)]) := by
      simp [hoist, List.dropWhile_cons, hwsc]
    unfold parseDocument
    rw [htok]
    simp only [hhoist]
    simp [buildNodes]

/-- Skipping a leading newline run shifts the pending counter. -/
theorem splitGo_replicate (k : Nat) : ∀ (l2 acc : List Char) (p : Nat),
    splitGo (List.replicate k '\n' ++ l2) acc p = splitGo l2 acc (p + k) := by
  induction k with
  | zero =>
    intro l2 acc p
    simp
  | succ k2 ih =>
    intro l2 acc p
    rw [List.replicate_succ]
    simp only [List.cons_append]
    rw [show splitGo ('\n' :: (List.replicate k2 '\n' ++ l2)) acc p
        = splitGo (List.replicate k2 '\n' ++ l2) acc (p + 1) from by simp [splitGo]]
    rw [ih]
    congr 1
    omega

/-- Splicing the single matched Text node of a one-child body replaces it
by the interspersed chunk nodes. -/
theorem splice_single (l : List Char) :
    splice [Node.text l] [(0, l)] = (intersperseGap (splitBlankRuns l)).map chunkNode := by
  have harg : (0 : Int) + (0 - 1) + 1 = ((([] : List Node)).length : Int) := by simp
  have hfold := foldInsert_append (intersperseGap (splitBlankRuns l)) [] [] 0 (0 - 1) harg
  unfold splice
  rw [List.foldl_cons, List.foldl_nil]
  have hunfold : spliceOne ([Node.text l], 0) (0, l)
      = (intersperseGap (splitBlankRuns l)).foldl
          (fun st2 chunk =>
            (vecInsert st2.1 ((0 : Int) + st2.2 + 1).toNat (chunkNode chunk), st2.2 + 1))
          (([] : List Node) ++ ([] : List Node), 0 - 1) := rfl
  rw [hunfold, hfold]
  simp

/-- On a matched tag-free text the whole pipeline produces the
serialization of the interspersed chunk nodes. -/
theorem transform_textonly (l : List Char) (hne : l ≠ []) (hlt : ∀ d ∈ l, ¬ d = '<')
    (hws : ∀ c, l.head? = some c → isWs c = false)
    (hbr : hasBlankRun l = true) :
    transform_html (String.mk l)
      = some (String.mk (serializeNodes
          ((intersperseGap (splitBlankRuns l)).map chunkNode))) := by
  have hparse : parseDocument (String.mk l).toList
      = some ⟨[Node.element "html"
          [Node.element "head" [], Node.element "body" [Node.text l]]]⟩ :=
    parse_textonly l hne hlt hws
  have hscan : scanTexts [Node.text l] = [(0, l)] := by
    simp [scanTexts, scanGo, hbr]
  have h4 : scanTexts (Node.element "body" [Node.text l]).kids ≠ [] := by
    simp only [Node.kids, hscan]
    simp
  have hrw := transform_eq_of_match (String.mk l)
    ⟨[Node.element "html" [Node.element "head" [], Node.element "body" [Node.text l]]]⟩
    (Node.element "html" [Node.element "head" [], Node.element "body" [Node.text l]])
    (Node.element "body" [Node.text l])
    hparse rfl rfl h4
  rw [hrw]
  simp only [Node.kids, hscan, splice_single]

/-! The claims. -/

/-- Claim C1: one splice step removes the matched Text node at its
offset-corrected index and replaces it with the alternating sequence of
text segments and empty `p` markers, which contains exactly
`2 * (number of blank-line runs) + 1` nodes; the running offset grows by
the net `2 * runs` so every later match lands at its position in the
already-mutated child sequence. -/
theorem spliceOne_replaces_match (cs : List Node) (off i : Int) (text : List Char)
    (hpos : 0 ≤ i + off) (hlt : (i + off).toNat < cs.length)
    (hmatch : hasBlankRun text = true) :
    spliceOne (cs, off) (i, text)
      = (cs.take (i + off).toNat ++ alternation (splitBlankRuns text)
          ++ cs.drop ((i + off).toNat + 1),
         off + 2 * (numRuns text : Int))
    ∧ (alternation (splitBlankRuns text)).length = 2 * numRuns text + 1
    ∧ 1 ≤ numRuns text := by
  have hsegne : splitBlankRuns text ≠ [] := splitGo_ne_nil text [] 0
  have hL2 : 2 ≤ (splitBlankRuns text).length :=
    splitGo_two_segments text [] 0 (Or.inl hmatch)
  have hmap : (intersperseGap (splitBlankRuns text)).map chunkNode
      = alternation (splitBlankRuns text) :=
    alternation_eq_map _ (segments_ne_sep text)
  have hilen : (intersperseGap (splitBlankRuns text)).length
      = 2 * (splitBlankRuns text).length - 1 := intersperseGap_length _ hsegne
  have halen : (alternation (splitBlankRuns text)).length
      = 2 * (splitBlankRuns text).length - 1 := alternation_length _ hsegne
  have hnum : numRuns text = (splitBlankRuns text).length - 1 := rfl
  refine ⟨?_, by omega, by omega⟩
  have hprelen : (cs.take (i + off).toNat).length = (i + off).toNat := by
    rw [List.length_take]
    omega
  have harg : i + (off - 1) + 1 = ((cs.take (i + off).toNat).length : Int) := by
    rw [hprelen]
    omega
  have hfold := foldInsert_append (intersperseGap (splitBlankRuns text))
    (cs.take (i + off).toNat) (cs.drop ((i + off).toNat + 1)) i (off - 1) harg
  have hunfold : spliceOne (cs, off) (i, text)
      = (intersperseGap (splitBlankRuns text)).foldl
          (fun st2 chunk => (vecInsert st2.1 (i + st2.2 + 1).toNat (chunkNode chunk), st2.2 + 1))
          (cs.take (i + off).toNat ++ cs.drop ((i + off).toNat + 1), off - 1) := rfl
  rw [hunfold, hfold, hmap, Prod.mk.injEq]
  refine ⟨rfl, ?_⟩
  rw [hilen]
  omega

/-- Witness for C1 at the single matched Text node `"a\n\nb"`. -/
theorem spliceOne_replaces_match_app :
    spliceOne ([Node.text ['a', '\n', '\n', 'b']], 0) (0, ['a', '\n', '\n', 'b'])
      = ([Node.text ['a', '\n', '\n', 'b']].take ((0 : Int) + 0).toNat
          ++ alternation (splitBlankRuns ['a', '\n', '\n', 'b'])
          ++ [Node.text ['a', '\n', '\n', 'b']].drop (((0 : Int) + 0).toNat + 1),
         0 + 2 * (numRuns ['a', '\n', '\n', 'b'] : Int))
    ∧ (alternation (splitBlankRuns ['a', '\n', '\n', 'b'])).length
        = 2 * numRuns ['a', '\n', '\n', 'b'] + 1
    ∧ 1 ≤ numRuns ['a', '\n', '\n', 'b'] :=
  spliceOne_replaces_match [Node.text ['a', '\n', '\n', 'b']] 0 0 ['a', '\n', '\n', 'b']
    (by decide) (by decide) (by decide)

/-- Claim C2: when the scan over the parsed body's direct children finds
no Text node with a blank-line run, the function returns the input string
itself, with no serialization round trip. -/
theorem transform_html_noop_exact (content : String) (doc : Document) (htmlN bodyN : Node)
    (h1 : parseDocument content.toList = some doc)
    (h2 : find_child_element doc.children "html" = some htmlN)
    (h3 : find_child_element htmlN.kids "body" = some bodyN)
    (h4 : scanTexts bodyN.kids = []) :
    transform_html content = some content :=
  transform_eq_of_no_match content doc htmlN bodyN h1 h2 h3 h4

/-- Witness for C2 on markup-bearing content with single newlines and a
nested element, returned byte-for-byte. -/
theorem transform_html_noop_exact_app :
    transform_html " <b>A</b>\nB " = some " <b>A</b>\nB " :=
  transform_html_noop_exact " <b>A</b>\nB "
    ⟨[Node.element "html" [Node.element "head" [],
        Node.element "body"
          [Node.element "b" [Node.text ['A']], Node.text ['\n', 'B', ' ']]]]⟩
    (Node.element "html" [Node.element "head" [],
        Node.element "body"
          [Node.element "b" [Node.text ['A']], Node.text ['\n', 'B', ' ']]])
    (Node.element "body"
        [Node.element "b" [Node.text ['A']], Node.text ['\n', 'B', ' ']])
    rfl rfl rfl rfl

/-- Claim C5: a trailing blank-line run still produces a trailing
paragraph marker with a zero-length final Text node that serializes to
nothing, while a leading blank-line run is hoisted out of body by the
parser and the input comes back unchanged. -/
theorem transform_html_trailing_leading :
    transform_html "a\n\n" = some "a<p></p>" ∧
    transform_html "\n\na" = some "\n\na" ∧
    splice [Node.text ['a', '\n', '\n']] (scanTexts [Node.text ['a', '\n', '\n']])
      = [Node.text ['a'], p_node, Node.text []] ∧
    serializeNode (Node.text []) = [] :=
  ⟨rfl, rfl, rfl, rfl⟩

/-- Claim C4: only text that is a direct child of `body` is ever split —
every match recorded by the scan is a direct-child Text node (Element
subtrees are never entered), a blank-line run inside a nested element is
left untouched with the element serialized to identical markup, and a
sibling gap after the element still splits. -/
theorem normalize_touches_only_direct_children :
    transform_html "<b>a\n\nb\n\nc</b>" = some "<b>a\n\nb\n\nc</b>" ∧
    transform_html "<b>a\n\nb\n\nc</b>\n\nd" = some "<b>a\n\nb\n\nc</b><p></p>d" ∧
    ∀ (cs : List Node) (j : Int) (t : List Char), (j, t) ∈ scanTexts cs →
      0 ≤ j ∧ cs[j.toNat]? = some (Node.text t) ∧ hasBlankRun t = true := by
  refine ⟨rfl, rfl, ?_⟩
  intro cs j t h
  obtain ⟨hle, hget, hbr⟩ := scanGo_mem cs 0 j t h
  refine ⟨hle, ?_, hbr⟩
  simpa using hget

/-- Witness for C4: the recorded match after a nested element is the
direct-child Text sibling. -/
theorem normalize_touches_only_direct_children_app :
    0 ≤ (1 : Int)
    ∧ [Node.element "b" [Node.text ['a', '\n', '\n', 'b', '\n', '\n', 'c']],
        Node.text ['\n', '\n', 'd']][(1 : Int).toNat]?
        = some (Node.text ['\n', '\n', 'd'])
    ∧ hasBlankRun ['\n', '\n', 'd'] = true :=
  normalize_touches_only_direct_children.2.2
    [Node.element "b" [Node.text ['a', '\n', '\n', 'b', '\n', '\n', 'c']],
     Node.text ['\n', '\n', 'd']] 1 ['\n', '\n', 'd'] (by decide)

/-- Claim C6: `find_child_element` returns the first direct child that is
an Element with a case-insensitively matching tag, skipping Text and
Comment children and never descending, and its lookup failure — the
modelled fatal panic — happens exactly when no direct child Element
matches. -/
theorem find_child_element_contract :
    (∀ (cs : List Node) (tag : String) (n : Node),
      find_child_element cs tag = some n →
      ((∃ t kids, n = Node.element t kids ∧ eqIgnoreAsciiCase t tag = true) ∧
       ∃ k : Nat, cs[k]? = some n ∧
         ∀ j : Nat, j < k → ∀ t2 kids2, cs[j]? = some (Node.element t2 kids2) →
           eqIgnoreAsciiCase t2 tag = false)) ∧
    (∀ (cs : List Node) (tag : String),
      find_child_element cs tag = none ↔
      ∀ t2 kids2, Node.element t2 kids2 ∈ cs → eqIgnoreAsciiCase t2 tag = false) :=
  ⟨fce_some_spec, fce_none_spec⟩

/-- Witness for C6: the lookup skips a Text child, a Comment child and a
non-matching Element and returns the first case-insensitive match. -/
theorem find_child_element_contract_app :
    (∃ t kids, Node.element "BODY" [Node.text ['y']] = Node.element t kids
      ∧ eqIgnoreAsciiCase t "body" = true) ∧
    ∃ k : Nat,
      [Node.text ['x'], Node.comment ['c'], Node.element "head" [],
        Node.element "BODY" [Node.text ['y']], Node.element "body" []][k]?
        = some (Node.element "BODY" [Node.text ['y']]) ∧
      ∀ j : Nat, j < k → ∀ t2 kids2,
        [Node.text ['x'], Node.comment ['c'], Node.element "head" [],
          Node.element "BODY" [Node.text ['y']], Node.element "body" []][j]?
          = some (Node.element t2 kids2) →
        eqIgnoreAsciiCase t2 "body" = false :=
  find_child_element_contract.1
    [Node.text ['x'], Node.comment ['c'], Node.element "head" [],
      Node.element "BODY" [Node.text ['y']], Node.element "body" []]
    "body" (Node.element "BODY" [Node.text ['y']]) rfl

/-- Claim C7: whenever at least one splice occurs the returned string is
the serialization of the body subtree only, so a leading comment the
parser hoisted to the document level is absent from the rewritten output
while the same input with no splice comes back verbatim. -/
theorem transform_serializes_body_subtree :
    (∀ (content : String) (doc : Document) (htmlN bodyN : Node),
      parseDocument content.toList = some doc →
      find_child_element doc.children "html" = some htmlN →
      find_child_element htmlN.kids "body" = some bodyN →
      scanTexts bodyN.kids ≠ [] →
      transform_html content
        = some (String.mk (serializeNodes (splice bodyN.kids (scanTexts bodyN.kids))))) ∧
    parseDocument "<!--  -->b\n\nc".toList
      = some ⟨[Node.comment [' ', ' '],
          Node.element "html" [Node.element "head" [],
            Node.element "body" [Node.text ['b', '\n', '\n', 'c']]]]⟩ ∧
    transform_html "<!--  -->b\n\nc" = some "b<p></p>c" ∧
    transform_html "<!--  -->b" = some "<!--  -->b" :=
  ⟨transform_eq_of_match, rfl, rfl, rfl⟩

/-- Witness for C7 on the hoisted-comment input that gets rewritten. -/
theorem transform_serializes_body_subtree_app :
    transform_html "<!--  -->b\n\nc"
      = some (String.mk (serializeNodes (splice [Node.text ['b', '\n', '\n', 'c']]
          (scanTexts [Node.text ['b', '\n', '\n', 'c']])))) :=
  transform_serializes_body_subtree.1 "<!--  -->b\n\nc"
    ⟨[Node.comment [' ', ' '],
      Node.element "html" [Node.element "head" [],
        Node.element "body" [Node.text ['b', '\n', '\n', 'c']]]]⟩
    (Node.element "html" [Node.element "head" [],
      Node.element "body" [Node.text ['b', '\n', '\n', 'c']]])
    (Node.element "body" [Node.text ['b', '\n', '\n', 'c']])
    rfl rfl rfl (by decide)

/-- Claim C8: the normalizer is a pure deterministic function of its
input string, and every call reaches exactly one of the two terminal
outcomes — the untouched input when the scan is empty, or the freshly
serialized rewrite when it is not. -/
theorem transform_html_pure_function :
    (∀ s t : String, s = t → transform_html s = transform_html t) ∧
    (∀ (content : String) (doc : Document) (htmlN bodyN : Node),
      parseDocument content.toList = some doc →
      find_child_element doc.children "html" = some htmlN →
      find_child_element htmlN.kids "body" = some bodyN →
      (scanTexts bodyN.kids = [] ∧ transform_html content = some content) ∨
      (scanTexts bodyN.kids ≠ [] ∧ transform_html content
        = some (String.mk (serializeNodes (splice bodyN.kids (scanTexts bodyN.kids)))))) := by
  constructor
  · intro s t h
    rw [h]
  · intro content doc htmlN bodyN h1 h2 h3
    by_cases h4 : scanTexts bodyN.kids = []
    · exact Or.inl ⟨h4, transform_eq_of_no_match content doc htmlN bodyN h1 h2 h3 h4⟩
    · exact Or.inr ⟨h4, transform_eq_of_match content doc htmlN bodyN h1 h2 h3 h4⟩

/-- Witness for C8 at equal inputs and at a rewriting input. -/
theorem transform_html_pure_function_app :
    transform_html "ab" = transform_html "ab" ∧
    ((scanTexts [Node.text ['a', '\n', '\n', 'b']] = []
        ∧ transform_html "a\n\nb" = some "a\n\nb") ∨
     (scanTexts [Node.text ['a', '\n', '\n', 'b']] ≠ []
        ∧ transform_html "a\n\nb"
          = some (String.mk (serializeNodes (splice [Node.text ['a', '\n', '\n', 'b']]
              (scanTexts [Node.text ['a', '\n', '\n', 'b']])))))) :=
  ⟨transform_html_pure_function.1 "ab" "ab" rfl,
   transform_html_pure_function.2 "a\n\nb"
    ⟨[Node.element "html" [Node.element "head" [],
        Node.element "body" [Node.text ['a', '\n', '\n', 'b']]]]⟩
    (Node.element "html" [Node.element "head" [],
      Node.element "body" [Node.text ['a', '\n', '\n', 'b']]])
    (Node.element "body" [Node.text ['a', '\n', '\n', 'b']])
    rfl rfl rfl⟩

/-- Claim C3: a single newline is never a paragraph boundary, while every
maximal run of two or more newlines in a matched direct-child Text node
becomes exactly one empty `p` marker regardless of the run's length: for
every `n ≥ 2` the input `"a" ++ "\n"*n ++ "b"` normalizes to
`"a<p></p>b"`. -/
theorem single_newline_never_splits_runs_collapse :
    transform_html "a\nb" = some "a\nb" ∧
    ∀ n : Nat, 2 ≤ n →
      transform_html (String.mk ('a' :: (List.replicate n '\n' ++ ['b'])))
        = some "a<p></p>b" := by
  refine ⟨rfl, ?_⟩
  intro n hn
  have hne : ('a' :: (List.replicate n '\n' ++ ['b'])) ≠ [] := by simp
  have hlt : ∀ d ∈ ('a' :: (List.replicate n '\n' ++ ['b'])), ¬ d = '<' := by
    intro d hd
    simp [List.mem_replicate] at hd
    rcases hd with rfl | h | rfl
    · decide
    · rw [h.2]; decide
    · decide
  have hws : ∀ c, ('a' :: (List.replicate n '\n' ++ ['b'])).head? = some c →
      isWs c = false := by
    intro c hc
    simp at hc
    rw [← hc]
    decide
  have hbr : hasBlankRun ('a' :: (List.replicate n '\n' ++ ['b'])) = true := by
    obtain ⟨m, rfl⟩ : ∃ m, n = m + 2 := ⟨n - 2, by omega⟩
    rw [show List.replicate (m + 2) '\n' = '\n' :: '\n' :: List.replicate m '\n' from by
      simp [List.replicate_succ]]
    simp [hasBlankRun]
  have hsplit : splitBlankRuns ('a' :: (List.replicate n '\n' ++ ['b']))
      = [['a'], ['b']] := by
    show splitGo ('a' :: (List.replicate n '\n' ++ ['b'])) [] 0 = [['a'], ['b']]
    rw [show splitGo ('a' :: (List.replicate n '\n' ++ ['b'])) [] 0
        = splitGo (List.replicate n '\n' ++ ['b']) ['a'] 0 from by simp [splitGo]]
    rw [splitGo_replicate]
    have hb : ¬ ('b' = '\n') := by decide
    rw [show (0 : Nat) + n = n from by omega]
    simp only [splitGo]
    rw [if_neg hb, if_pos hn]
    simp [splitGo]
  rw [transform_textonly ('a' :: (List.replicate n '\n' ++ ['b'])) hne hlt hws hbr, hsplit]
  rfl

/-- Witness for C3 at runs of length two and six. -/
theorem single_newline_never_splits_runs_collapse_app :
    transform_html (String.mk ('a' :: (List.replicate 2 '\n' ++ ['b'])))
      = some "a<p></p>b" ∧
    transform_html (String.mk ('a' :: (List.replicate 6 '\n' ++ ['b'])))
      = some "a<p></p>b" :=
  ⟨single_newline_never_splits_runs_collapse.2 2 (by decide),
   single_newline_never_splits_runs_collapse.2 6 (by decide)⟩

/-- Claim C9: for every converted post the page file content is exactly
the front-matter block delimited by `+++` lines — a title line carrying
the title with every double quote escaped as backslash-quote, and a date
line carrying the RFC 2822 `pubDate` re-rendered as RFC 3339 — followed by
the markdown body. -/
theorem create_page_front_matter :
    ∀ (md : String → String) (base output : String) (item : Item) (rest : List Item)
      (sections : List String) (d : DateTime) (c : String),
      item.status = Status.publish →
      item.post_type = PostType.post →
      parse_from_rfc2822 item.pub_date = some d →
      item.encoded.head? = some c →
      convertGo md base output (item :: rest) sections
        = (convertGo md base output rest
            (if parentDir (pathJoin output (generate_path base item.link)) ∈ sections
             then sections
             else parentDir (pathJoin output (generate_path base item.link)) :: sections)).map
            (fun calls =>
              FsCall.dir (parentDir (pathJoin output (generate_path base item.link)))
                :: ((if parentDir (pathJoin output (generate_path base item.link)) ∈ sections
                     then []
                     else [FsCall.section
                        (parentDir (pathJoin output (generate_path base item.link)))])
                  ++ FsCall.page (pathJoin output (generate_path base item.link))
                      ("+++\n" ++ "title = \"" ++ String.mk (replaceQuote item.title.toList)
                        ++ "\"\n" ++ "date = " ++ to_rfc3339 d ++ "\n" ++ "+++\n"
                        ++ String.mk (removeEmptyLinks (md c).toList) ++ "\n")
                    :: calls)) := by
  intro md base output item rest sections d c hst hpt hdate hhead
  simp only [convertGo, hst, hpt, hdate, hhead]
  cases hrest : convertGo md base output rest
      (if parentDir (pathJoin output (generate_path base item.link)) ∈ sections
       then sections
       else parentDir (pathJoin output (generate_path base item.link)) :: sections) with
  | none => simp
  | some calls => simp [create_page_content]

/-- Witness for C9 at the export test's post with quotes in its title and
an empty link in its body. -/
theorem create_page_front_matter_app :
    convertGo id "https://example.com" "output"
      [⟨"Post \"1\"", "http://example.com/post1", "Mon, 01 Sep 2008 21:02:27 +0000",
        PostType.post, ["Foo []() Bar"], Status.publish⟩] []
      = (convertGo id "https://example.com" "output" []
          (if parentDir (pathJoin "output"
                (generate_path "https://example.com" "http://example.com/post1")) ∈
              ([] : List String)
           then ([] : List String)
           else parentDir (pathJoin "output"
                (generate_path "https://example.com" "http://example.com/post1")) :: [])).map
          (fun calls =>
            FsCall.dir (parentDir (pathJoin "output"
                (generate_path "https://example.com" "http://example.com/post1")))
              :: ((if parentDir (pathJoin "output"
                      (generate_path "https://example.com" "http://example.com/post1")) ∈
                    ([] : List String)
                   then []
                   else [FsCall.section (parentDir (pathJoin "output"
                      (generate_path "https://example.com" "http://example.com/post1")))])
                ++ FsCall.page (pathJoin "output"
                      (generate_path "https://example.com" "http://example.com/post1"))
                    ("+++\n" ++ "title = \""
                      ++ String.mk (replaceQuote ("Post \"1\"" : String).toList)
                      ++ "\"\n" ++ "date = "
                      ++ to_rfc3339 ⟨2008, 9, 1, 21, 2, 27, 0⟩ ++ "\n" ++ "+++\n"
                      ++ String.mk (removeEmptyLinks (id ("Foo []() Bar" : String)).toList)
                      ++ "\n")
                  :: calls)) :=
  create_page_front_matter id "https://example.com" "output"
    ⟨"Post \"1\"", "http://example.com/post1", "Mon, 01 Sep 2008 21:02:27 +0000",
      PostType.post, ["Foo []() Bar"], Status.publish⟩ [] [] ⟨2008, 9, 1, 21, 2, 27, 0⟩
    "Foo []() Bar" rfl rfl rfl rfl

/-- Claim C10: convert produces output only for items whose status is
Publish and whose post type is Post — the effect trace is unchanged when
all other items are dropped, and a single skipped item yields no
directory, section or page call at all. -/
theorem convert_skips_unpublished_and_nonposts :
    (∀ (md : String → String) (base output : String) (items : List Item)
       (sections : List String),
      convertGo md base output items sections
        = convertGo md base output
            (items.filter (fun it =>
              decide (it.status = Status.publish) && decide (it.post_type = PostType.post)))
            sections) ∧
    (∀ (md : String → String) (base output : String) (item : Item),
      item.status ≠ Status.publish
        ∨ item.post_type = PostType.attachment
        ∨ item.post_type = PostType.other →
      convert md base output [item] = some []) := by
  constructor
  · intro md base output items
    induction items with
    | nil =>
      intro sections
      rfl
    | cons item rest ih =>
      intro sections
      rw [List.filter_cons]
      cases hs : item.status with
      | publish =>
        cases hp : item.post_type with
        | post =>
          rw [show (decide (Status.publish = Status.publish)
              && decide (PostType.post = PostType.post)) = true from by simp]
          rw [if_pos rfl]
          simp only [convertGo, hs, hp]
          cases hdate : parse_from_rfc2822 item.pub_date with
          | none => rfl
          | some d =>
            cases hhead : item.encoded.head? with
            | none => rfl
            | some c =>
              rw [ih]
        | attachment =>
          rw [show convertGo md base output (item :: rest) sections
              = convertGo md base output rest sections from by
            simp only [convertGo, hs, hp]]
          rw [show (decide (Status.publish = Status.publish)
              && decide (PostType.attachment = PostType.post)) = false from by simp]
          simpa using ih sections
        | other =>
          rw [show convertGo md base output (item :: rest) sections
              = convertGo md base output rest sections from by
            simp only [convertGo, hs, hp]]
          rw [show (decide (Status.publish = Status.publish)
              && decide (PostType.other = PostType.post)) = false from by simp]
          simpa using ih sections
      | draft =>
        rw [show convertGo md base output (item :: rest) sections
            = convertGo md base output rest sections from by
          simp only [convertGo, hs]]
        rw [show (decide (Status.draft = Status.publish)
            && decide (item.post_type = PostType.post)) = false from by simp]
        simpa using ih sections
      | inherit =>
        rw [show convertGo md base output (item :: rest) sections
            = convertGo md base output rest sections from by
          simp only [convertGo, hs]]
        rw [show (decide (Status.inherit = Status.publish)
            && decide (item.post_type = PostType.post)) = false from by simp]
        simpa using ih sections
      | priv =>
        rw [show convertGo md base output (item :: rest) sections
            = convertGo md base output rest sections from by
          simp only [convertGo, hs]]
        rw [show (decide (Status.priv = Status.publish)
            && decide (item.post_type = PostType.post)) = false from by simp]
        simpa using ih sections
  · intro md base output item hskip
    unfold convert
    cases hs : item.status with
    | publish =>
      cases hp : item.post_type with
      | post =>
        exfalso
        rcases hskip with h | h | h
        · exact h hs
        · rw [hp] at h
          exact absurd h (by simp)
        · rw [hp] at h
          exact absurd h (by simp)
      | attachment => simp [convertGo, hs, hp]
      | other => simp [convertGo, hs, hp]
    | draft => simp [convertGo, hs]
    | inherit => simp [convertGo, hs]
    | priv => simp [convertGo, hs]

/-- Witness for C10: a draft post produces no filesystem effects. -/
theorem convert_skips_unpublished_and_nonposts_app :
    convert id "https://example.com" "output"
      [⟨"Post 2", "http://example.com/post2", "Mon, 01 Sep 2008 21:02:27 +0000",
        PostType.post, [""], Status.draft⟩] = some [] :=
  convert_skips_unpublished_and_nonposts.2 id "https://example.com" "output"
    ⟨"Post 2", "http://example.com/post2", "Mon, 01 Sep 2008 21:02:27 +0000",
      PostType.post, [""], Status.draft⟩ (Or.inl (by decide))

end WpZola
